import Mathlib

/-!
Shallow embedding of `subtitle-sync` (src/main.rs): the `TimeCode` /
`TimeRange` codec, the per-line rewriter `update_line` and the ratio
computation `compute_ratio`.

Rust strings are modelled as lists of bytes (`List Nat`, each entry < 256);
`&s[a..b]` byte-slicing carries Rust's bounds and UTF-8 char-boundary
checks and panics otherwise.  `u32` arithmetic wraps modulo `2 ^ 32` at each
operation, matching release-build semantics.  `f32` is modelled as IEEE-754
binary32 with round-to-nearest-even: a value is NaN, a signed infinity, or
a finite value carried as its exact rational; `roundPair n d` rounds the
exact rational result `n / d` of one arithmetic step the way binary32
does.  The model does not track the sign of zero (no negative zero arises
in this program: every float here is a `u32` cast, a product or a quotient
of nonnegative values).  All arithmetic inside the model is on `Int` and
`Nat` so that every definition evaluates by kernel reduction.
-/

set_option maxRecDepth 40000

/-- Modulus of Rust `u32` arithmetic. -/
def u32Lim : Nat := 4294967296

-- TimeCode struct (fields are `u32`)

structure TimeCode where
  h : Nat
  m : Nat
  s : Nat
  ms : Nat
deriving DecidableEq

/-- Rust `TimeCode::to_ms`: `(((h * 60 + m) * 60) + s) * 1000 + ms` in
`u32` arithmetic, each operation wrapping modulo `2 ^ 32`. -/
def TimeCode.to_ms (t : TimeCode) : Nat :=
  ((((t.h * 60 % u32Lim + t.m) % u32Lim * 60 % u32Lim + t.s) % u32Lim
      * 1000 % u32Lim + t.ms) % u32Lim)

/-- Rust `TimeCode::from_ms`: decompose a millisecond total by integer
division and modulo. -/
def TimeCode.from_ms (ms_total : Nat) : TimeCode :=
  { h := ms_total / 3600000
    m := ms_total % 3600000 / 60000
    s := ms_total % 3600000 % 60000 / 1000
    ms := ms_total % 1000 }

-- Decimal formatting (Rust format! with {:0>2} / {:0>3})

/-- Decimal ASCII digits of `n`, most significant first; the fuel bound
covers every `u32` (10 decimal digits). -/
def digitsAux : Nat → Nat → List Nat
  | 0, _ => []
  | fuel + 1, n => if n = 0 then [] else digitsAux fuel (n / 10) ++ [48 + n % 10]

/-- Decimal ASCII rendering of a `u32` value. -/
def natToAscii (n : Nat) : List Nat :=
  if n = 0 then [48] else digitsAux 10 n

/-- Rust `format!("{:0>2}", n)`: left-pad the decimal digits with `'0'` to
width 2 (wider values keep all their digits). -/
def pad2 (n : Nat) : List Nat :=
  List.replicate (2 - (natToAscii n).length) 48 ++ natToAscii n

/-- Rust `format!("{:0>3}", n)`: left-pad the decimal digits with `'0'` to
width 3. -/
def pad3 (n : Nat) : List Nat :=
  List.replicate (3 - (natToAscii n).length) 48 ++ natToAscii n

/-- Rust `TimeCode::to_string`: `"{h:0>2}:{m:0>2}:{s:0>2},{ms:0>3}"` as
bytes (`58 = ':'`, `44 = ','`). -/
def TimeCode.to_string (t : TimeCode) : List Nat :=
  pad2 t.h ++ [58] ++ pad2 t.m ++ [58] ++ pad2 t.s ++ [44] ++ pad3 t.ms

-- IEEE-754 binary32 model

/-- Model of a Rust `f32` value: NaN, a signed infinity (`true` means
negative), or a finite value given by its exact rational (the sign of zero
is not tracked). -/
inductive F32 where
  | nan : F32
  | inf : Bool → F32
  | finite : ℚ → F32
deriving DecidableEq

/-- Exact rational value of a finite f32, `none` for NaN and infinities. -/
def F32.val : F32 → Option ℚ
  | .finite q => some q
  | _ => none

/-- Floor-of-log2 helper: `nlog2F fuel n` halves `n` until it is below 2,
counting the steps.  Structural fuel keeps it kernel-computable. -/
def nlog2F : Nat → Nat → Nat
  | 0, _ => 0
  | fuel + 1, n => if n < 2 then 0 else nlog2F fuel (n / 2) + 1

/-- Floor of the base-2 logarithm of `n` (exact for `1 ≤ n < 2 ^ 1000`,
which covers every magnitude reachable from binary32 inputs). -/
def nlog2 (n : Nat) : Nat := nlog2F 1000 n

/-- Floor of the base-2 logarithm of the positive rational `n / d`,
computed from the integer `⌊(n / d) * 2 ^ 160⌋` (exact for every value
`≥ 2 ^ (-160)`; smaller magnitudes are flushed below the subnormal
quantum anyway). -/
def qlog2Pair (n : ℤ) (d : ℕ) : ℤ :=
  (nlog2 ((n * 2 ^ (160 : ℕ)).toNat / d) : ℤ) - 160

/-- Floor of the rational `n / d` (`d > 0`), on integers. -/
def floorPair (n : ℤ) (d : ℕ) : ℤ :=
  if 0 ≤ n then ((n.toNat / d : ℕ) : ℤ) else -(((n.natAbs + d - 1) / d : ℕ) : ℤ)

/-- Round the rational `n / d` (`d > 0`) to the nearest integer, ties to
even. -/
def rnePair (n : ℤ) (d : ℕ) : ℤ :=
  if 2 * (n - floorPair n d * d) < d then floorPair n d
  else if (d : ℤ) < 2 * (n - floorPair n d * d) then floorPair n d + 1
  else if floorPair n d % 2 = 0 then floorPair n d else floorPair n d + 1

/-- Rational value of the dyadic `m * 2 ^ e`, built with `mkRat`. -/
def dyToQ (m : ℤ) (e : ℤ) : ℚ :=
  if 0 ≤ e then mkRat (m * 2 ^ e.toNat) 1 else mkRat m (2 ^ (-e).toNat)

/-- Exponent of the binary32 rounding quantum for the positive rational
`a / d`: its binade minus 23 (24-bit significands), clamped to the
subnormal quantum `2 ^ (-149)`. -/
def roundE (a : ℤ) (d : ℕ) : ℤ := max (qlog2Pair a d - 23) (-149)

/-- Significand of the positive rational `a / d` rounded at the quantum
`2 ^ roundE a d`: the integer nearest (ties to even) to
`(a / d) / 2 ^ roundE a d`. -/
def roundM (a : ℤ) (d : ℕ) : ℤ :=
  if 0 ≤ roundE a d then rnePair a (d * 2 ^ (roundE a d).toNat)
  else rnePair (a * 2 ^ (-roundE a d).toNat) d

/-- Whether the rounded value `roundM a d * 2 ^ roundE a d` reaches the
binary32 overflow threshold `2 ^ 128`. -/
def roundOvf (a : ℤ) (d : ℕ) : Bool :=
  if 0 ≤ roundE a d then decide ((2 ^ (128 : ℕ) : ℤ) ≤ roundM a d * 2 ^ (roundE a d).toNat)
  else decide ((2 ^ (128 + (-roundE a d).toNat) : ℤ) ≤ roundM a d)

/-- Round the exact rational `n / d` (`d > 0`) to binary32: round to
nearest, ties to even, at the quantum `2 ^ (binade - 23)` clamped to
`2 ^ (-149)`, overflowing to infinity at `2 ^ 128`. -/
def roundPair (n : ℤ) (d : ℕ) : F32 :=
  if n = 0 then .finite 0
  else if roundOvf (n.natAbs : ℤ) d then .inf (decide (n < 0))
  else .finite (dyToQ
    (if n < 0 then -roundM (n.natAbs : ℤ) d else roundM (n.natAbs : ℤ) d)
    (roundE (n.natAbs : ℤ) d))

/-- Rust `u32 as f32` (round to nearest even). -/
def u32toF32 (n : Nat) : F32 := roundPair (n : ℤ) 1

/-- Truncation of a rational toward zero, on its numerator and
denominator. -/
def qtrunc (q : ℚ) : ℤ :=
  if 0 ≤ q.num then ((q.num.toNat / q.den : ℕ) : ℤ) else -((q.num.natAbs / q.den : ℕ) : ℤ)

/-- Rust `f32::trunc`. -/
def F32.trunc : F32 → F32
  | .nan => .nan
  | .inf s => .inf s
  | .finite q => .finite (mkRat (qtrunc q) 1)

/-- Rust `f32 as u32`: truncate toward zero and saturate to `[0, 2^32)`;
NaN casts to 0. -/
def F32.toU32 : F32 → Nat
  | .nan => 0
  | .inf s => if s then 0 else u32Lim - 1
  | .finite q =>
    if qtrunc q < 0 then 0
    else if (u32Lim : ℤ) ≤ qtrunc q then u32Lim - 1 else (qtrunc q).toNat

/-- IEEE-754 binary32 multiplication on the model: round the exact
product. -/
def F32.mul : F32 → F32 → F32
  | .nan, _ => .nan
  | _, .nan => .nan
  | .inf s1, .inf s2 => .inf (xor s1 s2)
  | .inf s1, .finite q => if q.num = 0 then .nan else .inf (xor s1 (decide (q.num < 0)))
  | .finite q, .inf s2 => if q.num = 0 then .nan else .inf (xor (decide (q.num < 0)) s2)
  | .finite q1, .finite q2 => roundPair (q1.num * q2.num) (q1.den * q2.den)

/-- IEEE-754 binary32 division on the model: round the exact quotient;
a nonzero finite value divided by zero gives a signed infinity, `0 / 0`
gives NaN. -/
def F32.div : F32 → F32 → F32
  | .nan, _ => .nan
  | _, .nan => .nan
  | .inf _, .inf _ => .nan
  | .inf s1, .finite q => .inf (xor s1 (decide (q.num < 0)))
  | .finite _, .inf _ => .finite 0
  | .finite q1, .finite q2 =>
    if q2.num = 0 then (if q1.num = 0 then .nan else .inf (decide (q1.num < 0)))
    else
      if q2.num < 0 then roundPair (-(q1.num * q2.den)) (q1.den * q2.num.natAbs)
      else roundPair (q1.num * q2.den) (q1.den * q2.num.natAbs)

/-- Rust `TimeCode::sync`: `(to_ms() as f32 * ratio).trunc() as u32`,
rebuilt with `from_ms` and rendered with `to_string`. -/
def TimeCode.sync (t : TimeCode) (ratio : F32) : List Nat :=
  (TimeCode.from_ms ((F32.mul (u32toF32 t.to_ms) ratio).trunc.toU32)).to_string

-- Byte-string primitives (Rust &str operations)

/-- Result of a Rust computation that can return `Err` or panic. -/
inductive RustResult (α : Type) where
  | ok : α → RustResult α
  | parseErr : RustResult α
  | panicked : RustResult α
deriving DecidableEq

/-- Rust `str::is_char_boundary` on a UTF-8 byte string: index 0, the
length, or any in-range index whose byte is not a continuation byte
`0x80..0xBF`. -/
def isCharBoundary (s : List Nat) (i : Nat) : Bool :=
  i == 0 || i == s.length ||
    (decide (i < s.length) && !(decide (128 ≤ s.getD i 0) && decide (s.getD i 0 < 192)))

/-- Rust `&s[a..b]`: `some` slice when `a ≤ b ≤ len` and both ends are char
boundaries, `none` (panic) otherwise. -/
def byteSlice (s : List Nat) (a b : Nat) : Option (List Nat) :=
  if a ≤ b ∧ b ≤ s.length ∧ isCharBoundary s a ∧ isCharBoundary s b then
    some ((s.drop a).take (b - a))
  else none

/-- Rust `u32::from_str`: an optional leading `'+'`, then one or more
ASCII digits, with an overflow check against `2 ^ 32`. -/
def parseU32 (s : List Nat) : Option Nat :=
  let s' := match s with
    | c :: rest => if c = 43 then rest else s
    | [] => s
  if s' = [] then none
  else if s'.all (fun c => decide (48 ≤ c) && decide (c ≤ 57)) then
    if s'.foldl (fun a c => a * 10 + (c - 48)) 0 < u32Lim then
      some (s'.foldl (fun a c => a * 10 + (c - 48)) 0)
    else none
  else none

/-- Rust `TimeCode::from_str`: parse the digit groups at byte ranges
`[0,2)`, `[3,5)`, `[6,8)`, `[9,12)`; a failed slice panics, a failed digit
parse is the `ParseIntError` which `?` propagates. -/
def TimeCode.from_str (time_code : List Nat) : RustResult TimeCode :=
  match byteSlice time_code 0 2 with
  | none => .panicked
  | some g1 =>
    match parseU32 g1 with
    | none => .parseErr
    | some h =>
      match byteSlice time_code 3 5 with
      | none => .panicked
      | some g2 =>
        match parseU32 g2 with
        | none => .parseErr
        | some m =>
          match byteSlice time_code 6 8 with
          | none => .panicked
          | some g3 =>
            match parseU32 g3 with
            | none => .parseErr
            | some s =>
              match byteSlice time_code 9 12 with
              | none => .panicked
              | some g4 =>
                match parseU32 g4 with
                | none => .parseErr
                | some ms => .ok { h := h, m := m, s := s, ms := ms }

-- TimeRange struct

structure TimeRange where
  beginning : TimeCode
  end_ : TimeCode
deriving DecidableEq

/-- Separator bytes of `" --> "` (space, `-`, `-`, `>`, space). -/
def arrowSep : List Nat := [32, 45, 45, 62, 32]

/-- Rust `TimeRange::sync`: `format!("{} --> {}", beginning.sync, end.sync)`. -/
def TimeRange.sync (r : TimeRange) (ratio : F32) : List Nat :=
  r.beginning.sync ratio ++ arrowSep ++ r.end_.sync ratio

/-- Rust `TimeRange::from_str`: `TimeCode::from_str` on byte ranges
`[0,12)` and `[17,29)`, propagating failure from either endpoint. -/
def TimeRange.from_str (time_range : List Nat) : RustResult TimeRange :=
  match byteSlice time_range 0 12 with
  | none => .panicked
  | some b =>
    match TimeCode.from_str b with
    | .ok beginning =>
      match byteSlice time_range 17 29 with
      | none => .panicked
      | some e =>
        match TimeCode.from_str e with
        | .ok end_ => .ok { beginning := beginning, end_ := end_ }
        | .parseErr => .parseErr
        | .panicked => .panicked
    | .parseErr => .parseErr
    | .panicked => .panicked

-- Line rewriting

/-- Bytes of the literal `"-->"`. -/
def arrow : List Nat := [45, 45, 62]

/-- Whether `pat` is a prefix of `s`. -/
def startsWith (s pat : List Nat) : Bool := s.take pat.length == pat

/-- Rust `str::contains` with a literal pattern: a substring match at some
position. -/
def containsSub (s pat : List Nat) : Bool :=
  (List.range (s.length + 1)).any fun i => startsWith (s.drop i) pat

/-- Leftmost non-overlapping replacement with explicit fuel (one unit per
byte suffices because every step consumes at least one byte when the
pattern is nonempty). -/
def replaceAllF : Nat → List Nat → List Nat → List Nat → List Nat
  | 0, s, _, _ => s
  | fuel + 1, s, pat, rep =>
    if startsWith s pat ∧ pat ≠ [] then rep ++ replaceAllF fuel (s.drop pat.length) pat rep
    else
      match s with
      | [] => []
      | c :: t => c :: replaceAllF fuel t pat rep

/-- Rust `str::replace`: replace every leftmost non-overlapping occurrence
of `pat` by `rep`. -/
def replaceAll (s pat rep : List Nat) : List Nat :=
  replaceAllF (s.length + 1) s pat rep

/-- Rust `update_line`: on a line of byte length at least 29 containing
`"-->"`, slice the first 29 bytes (panicking on a char-boundary violation),
parse them as a `TimeRange` (`unwrap` panics on a parse error), rescale,
substitute with `str::replace` and append `'\n'`; other lines pass through
with `'\n'` appended. -/
def update_line (content : List Nat) (ratio : F32) : RustResult (List Nat) :=
  if 29 ≤ content.length ∧ containsSub content arrow then
    match byteSlice content 0 29 with
    | none => .panicked
    | some initial_time_range =>
      match TimeRange.from_str initial_time_range with
      | .ok time_range =>
        .ok (replaceAll content initial_time_range (time_range.sync ratio) ++ [10])
      | _ => .panicked
  else .ok (content ++ [10])

/-- Rust `compute_ratio`: parse both reference strings (each `unwrap`
panics on failure, modelled by `none`) and divide the `to` total by the
`from` total as `f32`. -/
def compute_ratio (from_s to_s : List Nat) : Option F32 :=
  match TimeCode.from_str from_s with
  | .ok from_tc =>
    match TimeCode.from_str to_s with
    | .ok to_tc => some (F32.div (u32toF32 to_tc.to_ms) (u32toF32 from_tc.to_ms))
    | _ => none
  | _ => none

/-- Exact (unwrapped) millisecond total of the spec's data model:
`((hours * 60 + minutes) * 60 + seconds) * 1000 + milliseconds`. -/
def totalMs (t : TimeCode) : Nat :=
  ((t.h * 60 + t.m) * 60 + t.s) * 1000 + t.ms

/-- Validity check for the fragment of UTF-8 made of ASCII bytes and
two-byte sequences (lead `0xC2..0xDF` followed by a continuation byte
`0x80..0xBF`); every byte string it accepts is valid UTF-8. -/
def utf8Valid : List Nat → Bool
  | [] => true
  | c :: t =>
    if c < 128 then utf8Valid t
    else if 194 ≤ c ∧ c ≤ 223 then
      match t with
      | c2 :: t2 => decide (128 ≤ c2) && decide (c2 < 192) && utf8Valid t2
      | [] => false
    else false

-- Helper lemmas about the embedding

theorem byteSlice_some_le {s : List Nat} {a b : Nat} {g : List Nat}
    (h : byteSlice s a b = some g) : b ≤ s.length := by
  unfold byteSlice at h
  split at h
  · next hc => exact hc.2.1
  · exact absurd h (by simp)

theorem byteSlice_some_eq {s : List Nat} {a b : Nat} {g : List Nat}
    (h : byteSlice s a b = some g) : g = (s.drop a).take (b - a) := by
  unfold byteSlice at h
  split at h
  · exact (Option.some_inj.mp h).symm
  · exact absurd h (by simp)

theorem to_ms_lt (t : TimeCode) : t.to_ms < u32Lim := by
  unfold TimeCode.to_ms
  exact Nat.mod_lt _ (by unfold u32Lim; omega)

theorem to_ms_exact (t : TimeCode) (h : totalMs t < u32Lim) :
    t.to_ms = totalMs t := by
  unfold TimeCode.to_ms
  unfold totalMs at *
  unfold u32Lim at *
  omega

theorem from_ms_totalMs (t : TimeCode) (hm : t.m < 60) (hs : t.s < 60)
    (hms : t.ms < 1000) : TimeCode.from_ms (totalMs t) = t := by
  obtain ⟨h, m, s, ms⟩ := t
  simp only [TimeCode.from_ms, totalMs, TimeCode.mk.injEq] at *
  refine ⟨?_, ?_, ?_, ?_⟩ <;> omega

-- C6

/-- C6: a line that does not contain `"-->"` or is shorter than 29 bytes
is emitted unchanged except for one appended newline. -/
theorem update_line_passthrough (content : List Nat) (ratio : F32)
    (h : content.length < 29 ∨ containsSub content arrow = false) :
    update_line content ratio = .ok (content ++ [10]) := by
  unfold update_line
  rw [if_neg]
  rintro ⟨h1, h2⟩
  rcases h with h | h
  · omega
  · rw [h] at h2
    exact absurd h2 (by simp)

/-- C6 witness: the content line `"Hello, world!"` passes through with a
newline appended. -/
theorem update_line_passthrough_witness :
    update_line [72, 101, 108, 108, 111, 44, 32, 119, 111, 114, 108, 100, 33] (F32.finite 1)
      = .ok [72, 101, 108, 108, 111, 44, 32, 119, 111, 114, 108, 100, 33, 10] :=
  update_line_passthrough _ _ (by decide)

-- C8

/-- C8 counterexample: `to_ms` on the `u32`-representable timestamp with
`h = 100000000` wraps modulo `2 ^ 32` instead of returning the exact total
or failing with an `Overflow` error (no such error exists in the code). -/
theorem to_ms_wraps_cex :
    TimeCode.to_ms ⟨100000000, 0, 0, 0⟩ ≠ totalMs ⟨100000000, 0, 0, 0⟩ := by decide

/-- C8 amended: `to_ms` computes `((h * 60 + m) * 60 + s) * 1000 + ms` in
wrapping `u32` arithmetic and never fails; whenever the fields are in the
ranges a fixed-width parse produces (`h, m, s ≤ 99`, `ms ≤ 999`) the total
fits in a `u32` and the result is exact. -/
theorem to_ms_exact_for_parsed (t : TimeCode) (hh : t.h ≤ 99) (hm : t.m ≤ 99)
    (hs : t.s ≤ 99) (hms : t.ms ≤ 999) : t.to_ms = totalMs t := by
  apply to_ms_exact
  unfold totalMs u32Lim
  omega

/-- C8 witness: the largest parseable timestamp `99:99:99,999` has its
exact total computed without wrapping. -/
theorem to_ms_exact_for_parsed_witness :
    TimeCode.to_ms ⟨99, 99, 99, 999⟩ = totalMs ⟨99, 99, 99, 999⟩ :=
  to_ms_exact_for_parsed _ (by decide) (by decide) (by decide) (by decide)

-- C9

/-- C9: on every `u32` millisecond total, `from_ms` produces in-range
minute, second and millisecond fields and `to_ms` recovers the total
exactly, with no wrapping in the reconstruction. -/
theorem to_ms_from_ms_round_trip (x : Nat) (hx : x < u32Lim) :
    (TimeCode.from_ms x).m < 60 ∧ (TimeCode.from_ms x).s < 60 ∧
      (TimeCode.from_ms x).ms < 1000 ∧ TimeCode.to_ms (TimeCode.from_ms x) = x := by
  unfold TimeCode.from_ms TimeCode.to_ms
  unfold u32Lim at *
  simp only
  refine ⟨by omega, by omega, by omega, by omega⟩

/-- C9 witness: the round trip at the largest `u32` total. -/
theorem to_ms_from_ms_round_trip_witness :
    (TimeCode.from_ms 4294967295).m < 60 ∧ (TimeCode.from_ms 4294967295).s < 60 ∧
      (TimeCode.from_ms 4294967295).ms < 1000 ∧
      TimeCode.to_ms (TimeCode.from_ms 4294967295) = 4294967295 :=
  to_ms_from_ms_round_trip 4294967295 (by decide)

-- C10

/-- C10: a valid UTF-8 line of byte length at least 29 containing `"-->"`
whose byte offset 29 falls inside a two-byte character (here `é` at bytes
28-29) makes the rewriter panic on the `&content[0..29]` slice. -/
theorem update_line_panics_on_multibyte :
    utf8Valid [48, 48, 48, 48, 48, 48, 48, 48, 48, 48, 48, 48, 48, 48, 48, 48, 48, 48,
        48, 48, 48, 48, 45, 45, 62, 48, 48, 48, 195, 169] = true ∧
    29 ≤ ([48, 48, 48, 48, 48, 48, 48, 48, 48, 48, 48, 48, 48, 48, 48, 48, 48, 48,
        48, 48, 48, 48, 45, 45, 62, 48, 48, 48, 195, 169] : List Nat).length ∧
    containsSub [48, 48, 48, 48, 48, 48, 48, 48, 48, 48, 48, 48, 48, 48, 48, 48, 48, 48,
        48, 48, 48, 48, 45, 45, 62, 48, 48, 48, 195, 169] arrow = true ∧
    isCharBoundary [48, 48, 48, 48, 48, 48, 48, 48, 48, 48, 48, 48, 48, 48, 48, 48, 48, 48,
        48, 48, 48, 48, 45, 45, 62, 48, 48, 48, 195, 169] 29 = false ∧
    update_line [48, 48, 48, 48, 48, 48, 48, 48, 48, 48, 48, 48, 48, 48, 48, 48, 48, 48,
        48, 48, 48, 48, 45, 45, 62, 48, 48, 48, 195, 169] (F32.finite 1) = .panicked := by
  refine ⟨by decide, by decide, by decide, by decide, by decide⟩

-- C3

/-- C3 counterexample: the 11-byte string `"00:00:00,00"` makes
`TimeCode::from_str` panic on the out-of-range slice `[9..12)` instead of
returning a parse error. -/
theorem from_str_short_panic_cex :
    TimeCode.from_str [48, 48, 58, 48, 48, 58, 48, 48, 44, 48, 48] = .panicked := by decide

/-- C3 amended: on every string shorter than 12 bytes, `TimeCode::from_str`
never succeeds: it returns the digit-group parse error when a group inside
the string fails to parse first, and otherwise panics on an out-of-range
slice. -/
theorem from_str_short_err_or_panic (s : List Nat) (h : s.length < 12) :
    TimeCode.from_str s = .parseErr ∨ TimeCode.from_str s = .panicked := by
  cases h1 : byteSlice s 0 2 with
  | none => right; simp [TimeCode.from_str, h1]
  | some g1 =>
    cases h2 : parseU32 g1 with
    | none => left; simp [TimeCode.from_str, h1, h2]
    | some a =>
      cases h3 : byteSlice s 3 5 with
      | none => right; simp [TimeCode.from_str, h1, h2, h3]
      | some g2 =>
        cases h4 : parseU32 g2 with
        | none => left; simp [TimeCode.from_str, h1, h2, h3, h4]
        | some b =>
          cases h5 : byteSlice s 6 8 with
          | none => right; simp [TimeCode.from_str, h1, h2, h3, h4, h5]
          | some g3 =>
            cases h6 : parseU32 g3 with
            | none => left; simp [TimeCode.from_str, h1, h2, h3, h4, h5, h6]
            | some c =>
              cases h7 : byteSlice s 9 12 with
              | none => right; simp [TimeCode.from_str, h1, h2, h3, h4, h5, h6, h7]
              | some g4 => exact absurd (byteSlice_some_le h7) (by omega)

/-- C3 witness: the empty string is rejected (with the parse error on its
empty leading digit group) rather than accepted. -/
theorem from_str_short_err_or_panic_witness :
    TimeCode.from_str [] = .parseErr ∨ TimeCode.from_str [] = .panicked :=
  from_str_short_err_or_panic [] (by decide)

-- Replacement lemmas

theorem startsWith_le_length {s pat : List Nat} (h : startsWith s pat = true) :
    pat.length ≤ s.length := by
  unfold startsWith at h
  have := congrArg List.length (beq_iff_eq.mp h)
  simp only [List.length_take] at this
  omega

theorem replaceAllF_irrel (pat rep : List Nat) (hp : pat ≠ []) :
    ∀ f g s, s.length < f → s.length < g →
      replaceAllF f s pat rep = replaceAllF g s pat rep := by
  intro f
  induction f with
  | zero => intro g s hf _; omega
  | succ f ih =>
    intro g s hf hg
    cases g with
    | zero => omega
    | succ g' =>
      unfold replaceAllF
      split_ifs with hcond
      · have hk : pat.length ≤ s.length := startsWith_le_length hcond.1
        have hk1 : 1 ≤ pat.length := List.length_pos.mpr hp
        congr 1
        exact ih g' (s.drop pat.length) (by simp; omega) (by simp; omega)
      · cases s with
        | nil => rfl
        | cons c t =>
          simp only [List.length_cons] at hf hg
          simp only [List.cons.injEq, true_and]
          exact ih g' t (by omega) (by omega)

theorem replaceAll_head (s pat rep : List Nat) (h : startsWith s pat = true)
    (hp : pat ≠ []) :
    replaceAll s pat rep = rep ++ replaceAll (s.drop pat.length) pat rep := by
  have hk : pat.length ≤ s.length := startsWith_le_length h
  have hk1 : 1 ≤ pat.length := List.length_pos.mpr hp
  show replaceAllF (s.length + 1) s pat rep = _
  unfold replaceAllF
  rw [if_pos ⟨h, hp⟩]
  congr 1
  exact replaceAllF_irrel pat rep hp s.length ((s.drop pat.length).length + 1)
    (s.drop pat.length) (by simp; omega) (by simp)

-- C1

/-- C1 counterexample: on a line made of the same 29-character timespan
twice, with ratio 2.0, Rust `str::replace` rewrites both occurrences (the
code replaces every occurrence, not only the first, and so changes
characters outside the first 29): the output is the rescaled span twice,
not the rescaled span followed by the untouched original. -/
theorem update_line_not_first_only_cex :
    update_line ([48, 48, 58, 48, 48, 58, 48, 49, 44, 48, 48, 48, 32, 45, 45, 62, 32,
        48, 48, 58, 48, 48, 58, 48, 50, 44, 48, 48, 48] ++
        [48, 48, 58, 48, 48, 58, 48, 49, 44, 48, 48, 48, 32, 45, 45, 62, 32,
        48, 48, 58, 48, 48, 58, 48, 50, 44, 48, 48, 48]) (F32.finite (mkRat 2 1))
      = .ok (([48, 48, 58, 48, 48, 58, 48, 50, 44, 48, 48, 48, 32, 45, 45, 62, 32,
        48, 48, 58, 48, 48, 58, 48, 52, 44, 48, 48, 48] ++
        [48, 48, 58, 48, 48, 58, 48, 50, 44, 48, 48, 48, 32, 45, 45, 62, 32,
        48, 48, 58, 48, 48, 58, 48, 52, 44, 48, 48, 48]) ++ [10]) ∧
    ([48, 48, 58, 48, 48, 58, 48, 50, 44, 48, 48, 48, 32, 45, 45, 62, 32,
        48, 48, 58, 48, 48, 58, 48, 52, 44, 48, 48, 48] : List Nat)
      ≠ [48, 48, 58, 48, 48, 58, 48, 49, 44, 48, 48, 48, 32, 45, 45, 62, 32,
        48, 48, 58, 48, 48, 58, 48, 50, 44, 48, 48, 48] :=
  ⟨by decide, by decide⟩

/-- C1 amended: on a qualifying line whose 29-byte prefix parses, the
rewriter replaces every leftmost non-overlapping occurrence of that
original 29-byte substring (`str::replace` replaces all occurrences, the
prefix one included) with its rescaled form and appends one newline. -/
theorem update_line_replaces_all (content : List Nat) (ratio : F32)
    (itr : List Nat) (tr : TimeRange) (hlen : 29 ≤ content.length)
    (harr : containsSub content arrow = true)
    (hsl : byteSlice content 0 29 = some itr)
    (hp : TimeRange.from_str itr = .ok tr) :
    update_line content ratio =
      .ok (tr.sync ratio ++ replaceAll (content.drop 29) itr (tr.sync ratio) ++ [10]) := by
  have hitr : itr = content.take 29 := by
    rw [byteSlice_some_eq hsl]
    simp
  have hlitr : itr.length = 29 := by
    rw [hitr]
    simp
    omega
  have hsw : startsWith content itr = true := by
    unfold startsWith
    rw [hlitr, hitr]
    simp
  have hne : itr ≠ [] := by
    intro hc
    rw [hc] at hlitr
    simp at hlitr
  unfold update_line
  rw [if_pos ⟨hlen, harr⟩]
  simp only [hsl, hp]
  rw [replaceAll_head content itr (tr.sync ratio) hsw hne, hlitr]

/-- C1 witness: the amended behaviour at the doubled-timespan line with
ratio 2.0. -/
theorem update_line_replaces_all_witness :
    update_line ([48, 48, 58, 48, 48, 58, 48, 49, 44, 48, 48, 48, 32, 45, 45, 62, 32,
        48, 48, 58, 48, 48, 58, 48, 50, 44, 48, 48, 48] ++
        [48, 48, 58, 48, 48, 58, 48, 49, 44, 48, 48, 48, 32, 45, 45, 62, 32,
        48, 48, 58, 48, 48, 58, 48, 50, 44, 48, 48, 48]) (F32.finite (mkRat 2 1))
      = .ok (TimeRange.sync ⟨⟨0, 0, 1, 0⟩, ⟨0, 0, 2, 0⟩⟩ (F32.finite (mkRat 2 1)) ++
          replaceAll (([48, 48, 58, 48, 48, 58, 48, 49, 44, 48, 48, 48, 32, 45, 45, 62, 32,
            48, 48, 58, 48, 48, 58, 48, 50, 44, 48, 48, 48] ++
            [48, 48, 58, 48, 48, 58, 48, 49, 44, 48, 48, 48, 32, 45, 45, 62, 32,
            48, 48, 58, 48, 48, 58, 48, 50, 44, 48, 48, 48]).drop 29)
            [48, 48, 58, 48, 48, 58, 48, 49, 44, 48, 48, 48, 32, 45, 45, 62, 32,
            48, 48, 58, 48, 48, 58, 48, 50, 44, 48, 48, 48]
            (TimeRange.sync ⟨⟨0, 0, 1, 0⟩, ⟨0, 0, 2, 0⟩⟩ (F32.finite (mkRat 2 1))) ++ [10]) :=
  update_line_replaces_all _ _ _ _ (by decide) (by decide) (by decide) (by decide)

-- Arithmetic facts about the binary32 model

theorem nlog2F_spec : ∀ f n, 1 ≤ n → n < 2 ^ f →
    2 ^ nlog2F f n ≤ n ∧ n < 2 ^ (nlog2F f n + 1) := by
  intro f
  induction f with
  | zero =>
    intro n h1 h2
    norm_num at h2
    omega
  | succ f ih =>
    intro n h1 h2
    unfold nlog2F
    split_ifs with hlt
    · norm_num
      omega
    · have h2' : n / 2 < 2 ^ f := by
        rw [pow_succ] at h2
        omega
      obtain ⟨ha, hb⟩ := ih (n / 2) (by omega) h2'
      constructor
      · rw [pow_succ]
        omega
      · rw [pow_succ]
        omega

theorem nlog2_spec (n : ℕ) (h1 : 1 ≤ n) (h2 : n < 2 ^ 1000) :
    2 ^ nlog2 n ≤ n ∧ n < 2 ^ (nlog2 n + 1) := nlog2F_spec 1000 n h1 h2

theorem nlog2_unique (n a : ℕ) (hn : n < 2 ^ 1000) (h1 : 2 ^ a ≤ n)
    (h2 : n < 2 ^ (a + 1)) : nlog2 n = a := by
  have h0 : 1 ≤ n := le_trans Nat.one_le_two_pow h1
  obtain ⟨ha, hb⟩ := nlog2_spec n h0 hn
  rcases lt_trichotomy (nlog2 n) a with hlt | heq | hgt
  · have := Nat.pow_le_pow_right (by norm_num : 1 ≤ 2) (Nat.succ_le_of_lt hlt)
    omega
  · exact heq
  · have := Nat.pow_le_pow_right (by norm_num : 1 ≤ 2) (Nat.succ_le_of_lt hgt)
    omega

theorem nlog2_mul_pow (n k : ℕ) (h1 : 1 ≤ n) (hbig : n * 2 ^ k < 2 ^ 1000) :
    nlog2 (n * 2 ^ k) = nlog2 n + k := by
  have hn1000 : n < 2 ^ 1000 := by
    have : n ≤ n * 2 ^ k := Nat.le_mul_of_pos_right n (by positivity)
    omega
  obtain ⟨ha, hb⟩ := nlog2_spec n h1 hn1000
  apply nlog2_unique _ _ hbig
  · rw [pow_add]
    exact Nat.mul_le_mul_right _ ha
  · have : nlog2 n + k + 1 = nlog2 n + 1 + k := by omega
    rw [this, pow_add]
    exact (Nat.mul_lt_mul_right (by positivity)).mpr hb

theorem qlog2Pair_nat (n : ℕ) (h1 : 1 ≤ n) (h2 : n < 2 ^ 64) :
    qlog2Pair (n : ℤ) 1 = (nlog2 n : ℤ) := by
  unfold qlog2Pair
  have hcast : ((n : ℤ) * 2 ^ (160 : ℕ)) = ((n * 2 ^ 160 : ℕ) : ℤ) := by
    push_cast
    ring
  have hbig : n * 2 ^ 160 < 2 ^ 1000 := by
    calc n * 2 ^ 160 < 2 ^ 64 * 2 ^ 160 := (Nat.mul_lt_mul_right (by positivity)).mpr h2
    _ = 2 ^ 224 := by rw [← pow_add]
    _ ≤ 2 ^ 1000 := Nat.pow_le_pow_right (by norm_num) (by norm_num)
  rw [hcast, Int.toNat_natCast, Nat.div_one, nlog2_mul_pow n 160 h1 hbig]
  push_cast
  ring

theorem floorPair_natCast (a d : ℕ) : floorPair (a : ℤ) d = ((a / d : ℕ) : ℤ) := by
  unfold floorPair
  rw [if_pos (by positivity)]
  rw [Int.toNat_natCast]

theorem rnePair_mulNat (k d : ℕ) (hd : 0 < d) : rnePair ((k : ℤ) * d) d = k := by
  have h1 : floorPair ((k : ℤ) * d) d = k := by
    have hc : ((k : ℤ) * d) = ((k * d : ℕ) : ℤ) := by push_cast; ring
    rw [hc, floorPair_natCast, Nat.mul_div_cancel k hd]
  unfold rnePair
  rw [h1, if_pos]
  have : (k : ℤ) * d - k * d = 0 := by ring
  rw [this]
  positivity

theorem rnePair_cases (n : ℤ) (d : ℕ) :
    rnePair n d = floorPair n d ∨ rnePair n d = floorPair n d + 1 := by
  unfold rnePair
  split_ifs <;> simp

theorem floorPair_natCast_bounds (a d : ℕ) (hd : 0 < d) :
    ((a / d : ℕ) : ℤ) * d ≤ (a : ℤ) ∧ (a : ℤ) < (((a / d : ℕ) : ℤ) + 1) * d := by
  constructor
  · exact_mod_cast Nat.div_mul_le_self a d
  · have := (Nat.div_lt_iff_lt_mul hd).mp (Nat.lt_succ_self (a / d))
    exact_mod_cast this

theorem qtrunc_natCast (n : ℕ) : qtrunc (n : ℚ) = n := by
  unfold qtrunc
  rw [Rat.num_natCast, Rat.den_natCast]
  rw [if_pos (by positivity), Int.toNat_natCast, Nat.div_one]

theorem qtrunc_mk_int (z : ℤ) : qtrunc (mkRat z 1) = z := by
  rw [Rat.mkRat_one]
  unfold qtrunc
  rw [Rat.num_intCast, Rat.den_intCast]
  split_ifs <;> omega

theorem qtrunc_eq_floor (q : ℚ) (h : 0 ≤ q) : qtrunc q = ⌊q⌋ := by
  unfold qtrunc
  rw [if_pos (Rat.num_nonneg.mpr h)]
  have hn : (q.num.toNat : ℤ) = q.num := Int.toNat_of_nonneg (Rat.num_nonneg.mpr h)
  have hq : ((q.num.toNat : ℕ) : ℚ) / ((q.den : ℕ) : ℚ) = q := by
    rw [show ((q.num.toNat : ℕ) : ℚ) = ((q.num.toNat : ℤ) : ℚ) by push_cast; ring, hn]
    exact Rat.num_div_den q
  conv_rhs => rw [← hq]
  rw [Rat.floor_natCast_div_natCast, Int.natCast_div]

theorem rnePair_natMul (k d : ℕ) (hd : 0 < d) : rnePair ((k * d : ℕ) : ℤ) d = (k : ℤ) := by
  have hc : ((k * d : ℕ) : ℤ) = (k : ℤ) * (d : ℕ) := by push_cast; ring
  rw [hc]
  exact rnePair_mulNat k d hd

theorem roundPair_natCast (n : ℕ) (hle : n ≤ 2 ^ 24) :
    roundPair (n : ℤ) 1 = F32.finite (n : ℚ) := by
  rcases Nat.eq_zero_or_pos n with hn0 | hn1
  · subst hn0
    decide
  have hn64 : n < 2 ^ 64 := by
    have : (2 : ℕ) ^ 24 < 2 ^ 64 := by norm_num
    omega
  have habs : ((n : ℤ).natAbs : ℤ) = (n : ℤ) := by
    rw [Int.natAbs_ofNat]
  have hlog : qlog2Pair ((n : ℤ).natAbs : ℤ) 1 = (nlog2 n : ℤ) := by
    rw [habs]
    exact qlog2Pair_nat n hn1 hn64
  obtain ⟨hE1, hE2⟩ := nlog2_spec n hn1 (by
    have : (2 : ℕ) ^ 24 < 2 ^ 1000 := by norm_num
    omega)
  have hE24 : nlog2 n ≤ 24 := by
    by_contra hc
    have h1 : (2 : ℕ) ^ 25 ≤ 2 ^ nlog2 n := Nat.pow_le_pow_right (by norm_num) (by omega)
    have h2 : (2 : ℕ) ^ 24 < 2 ^ 25 := by norm_num
    omega
  have hE : roundE ((n : ℤ).natAbs : ℤ) 1 = (nlog2 n : ℤ) - 23 := by
    rw [roundE, hlog, max_eq_left]
    omega
  have hnz : (n : ℤ) ≠ 0 := by exact_mod_cast Nat.pos_iff_ne_zero.mp hn1
  have hnneg : ¬((n : ℤ) < 0) := by omega
  rcases Nat.lt_or_ge (nlog2 n) 23 with hElt | hEge
  · -- binade below 23: the quantum exponent is negative and n scales up exactly
    have heneg : ¬(0 ≤ roundE ((n : ℤ).natAbs : ℤ) 1) := by rw [hE]; omega
    have htn : (-roundE ((n : ℤ).natAbs : ℤ) 1).toNat = 23 - nlog2 n := by rw [hE]; omega
    have hm : roundM ((n : ℤ).natAbs : ℤ) 1 = ((n * 2 ^ (23 - nlog2 n) : ℕ) : ℤ) := by
      rw [roundM, if_neg heneg, htn, habs]
      have hc : (n : ℤ) * 2 ^ (23 - nlog2 n) = ((n * 2 ^ (23 - nlog2 n) * 1 : ℕ) : ℤ) := by
        push_cast
        ring
      rw [hc, rnePair_natMul _ 1 (by norm_num)]
    have hovf : roundOvf ((n : ℤ).natAbs : ℤ) 1 = false := by
      rw [roundOvf, if_neg heneg, htn, hm]
      simp only [decide_eq_false_iff_not, not_le]
      have hnat : n * 2 ^ (23 - nlog2 n) < 2 ^ (128 + (23 - nlog2 n)) := by
        rw [pow_add]
        refine (Nat.mul_lt_mul_right ?_).mpr ?_
        · positivity
        · calc n ≤ 2 ^ 24 := hle
          _ < 2 ^ 128 := by norm_num
      exact_mod_cast hnat
    rw [roundPair, if_neg hnz, if_neg (by rw [hovf]; simp)]
    rw [if_neg hnneg, hm, hE]
    congr 1
    rw [dyToQ, if_neg (by omega)]
    have htn2 : (-(((nlog2 n : ℤ)) - 23)).toNat = 23 - nlog2 n := by omega
    rw [htn2, Rat.mkRat_eq_divInt, Rat.divInt_eq_div]
    push_cast
    rw [mul_div_assoc, div_self (by positivity), mul_one]
  · -- binade 23 or 24: the quantum exponent is 0 or 1
    have hE2324 : nlog2 n = 23 ∨ nlog2 n = 24 := by omega
    have hepos : 0 ≤ roundE ((n : ℤ).natAbs : ℤ) 1 := by rw [hE]; omega
    rcases hE2324 with h23 | h24
    · have htn : (roundE ((n : ℤ).natAbs : ℤ) 1).toNat = 0 := by rw [hE, h23]; omega
      have hm : roundM ((n : ℤ).natAbs : ℤ) 1 = (n : ℤ) := by
        rw [roundM, if_pos hepos, htn, habs]
        norm_num
        have hc : (n : ℤ) = ((n * 1 : ℕ) : ℤ) := by push_cast; ring
        rw [hc, rnePair_natMul n 1 (by norm_num)]
        push_cast
        ring
      have hovf : roundOvf ((n : ℤ).natAbs : ℤ) 1 = false := by
        rw [roundOvf, if_pos hepos, htn, hm]
        simp only [decide_eq_false_iff_not, not_le, pow_zero, mul_one]
        calc (n : ℤ) ≤ (2 : ℤ) ^ 24 := by exact_mod_cast hle
        _ < 2 ^ 128 := by norm_num
      rw [roundPair, if_neg hnz, if_neg (by rw [hovf]; simp)]
      rw [if_neg hnneg, hm, hE, h23]
      congr 1
      rw [dyToQ, if_pos (by norm_num)]
      norm_num
    · have hn224 : n = 2 ^ 24 := by
        rw [h24] at hE1
        omega
      have htn : (roundE ((n : ℤ).natAbs : ℤ) 1).toNat = 1 := by rw [hE, h24]; omega
      have hm : roundM ((n : ℤ).natAbs : ℤ) 1 = ((2 : ℤ) ^ 23) := by
        rw [roundM, if_pos hepos, htn, habs, hn224]
        have hc : ((2 ^ 24 : ℕ) : ℤ) = ((2 ^ 23 * (1 * 2 ^ 1) : ℕ) : ℤ) := by norm_num
        rw [hc, rnePair_natMul (2 ^ 23) (1 * 2 ^ 1) (by norm_num)]
        norm_num
      have hovf : roundOvf ((n : ℤ).natAbs : ℤ) 1 = false := by
        rw [roundOvf, if_pos hepos, htn, hm]
        norm_num
      rw [roundPair, if_neg hnz, if_neg (by rw [hovf]; simp)]
      rw [if_neg hnneg, hm, hE, h24]
      congr 1
      rw [dyToQ, if_pos (by norm_num)]
      rw [hn224]
      norm_num

theorem roundPair_natCast_pos (n : ℕ) (h1 : 1 ≤ n) (h2 : n < 2 ^ 32) :
    ∃ q : ℚ, roundPair (n : ℤ) 1 = F32.finite q ∧ 0 < q := by
  rcases le_or_lt n (2 ^ 24) with hle | hgt
  · exact ⟨(n : ℚ), roundPair_natCast n hle, by exact_mod_cast h1⟩
  have habs : ((n : ℤ).natAbs : ℤ) = (n : ℤ) := by rw [Int.natAbs_ofNat]
  have hn64 : n < 2 ^ 64 := by
    have : (2 : ℕ) ^ 32 < 2 ^ 64 := by norm_num
    omega
  have hlog : qlog2Pair ((n : ℤ).natAbs : ℤ) 1 = (nlog2 n : ℤ) := by
    rw [habs]
    exact qlog2Pair_nat n h1 hn64
  obtain ⟨hE1, hE2⟩ := nlog2_spec n h1 (by
    have : (2 : ℕ) ^ 32 < 2 ^ 1000 := by norm_num
    omega)
  have hE24 : 24 ≤ nlog2 n := by
    by_contra hc
    have : (2 : ℕ) ^ (nlog2 n + 1) ≤ 2 ^ 24 := Nat.pow_le_pow_right (by norm_num) (by omega)
    omega
  have hE31 : nlog2 n ≤ 31 := by
    by_contra hc
    have : (2 : ℕ) ^ 32 ≤ 2 ^ nlog2 n := Nat.pow_le_pow_right (by norm_num) (by omega)
    omega
  have hE : roundE ((n : ℤ).natAbs : ℤ) 1 = (nlog2 n : ℤ) - 23 := by
    rw [roundE, hlog, max_eq_left]
    omega
  have hnz : (n : ℤ) ≠ 0 := by exact_mod_cast Nat.pos_iff_ne_zero.mp h1
  have hnneg : ¬((n : ℤ) < 0) := by omega
  have hepos : 0 ≤ roundE ((n : ℤ).natAbs : ℤ) 1 := by rw [hE]; omega
  have htn : (roundE ((n : ℤ).natAbs : ℤ) 1).toNat = nlog2 n - 23 := by rw [hE]; omega
  have hfl : floorPair (n : ℤ) (1 * 2 ^ (nlog2 n - 23)) =
      ((n / (1 * 2 ^ (nlog2 n - 23)) : ℕ) : ℤ) := floorPair_natCast n _
  have hf1 : 2 ^ 23 ≤ n / (1 * 2 ^ (nlog2 n - 23)) := by
    have hdle : (2 : ℕ) ^ nlog2 n / (1 * 2 ^ (nlog2 n - 23)) ≤ n / (1 * 2 ^ (nlog2 n - 23)) :=
      Nat.div_le_div_right hE1
    have hpd : (2 : ℕ) ^ nlog2 n / (1 * 2 ^ (nlog2 n - 23)) = 2 ^ 23 := by
      rw [one_mul, Nat.pow_div (by omega) (by norm_num)]
      congr 1
      omega
    omega
  have hf2 : n / (1 * 2 ^ (nlog2 n - 23)) * (1 * 2 ^ (nlog2 n - 23)) ≤ n :=
    Nat.div_mul_le_self n _
  have hD : 1 * 2 ^ (nlog2 n - 23) ≤ 2 ^ 8 := by
    rw [one_mul]
    exact Nat.pow_le_pow_right (by norm_num) (by omega)
  have hm : roundM ((n : ℤ).natAbs : ℤ) 1 = rnePair (n : ℤ) (1 * 2 ^ (nlog2 n - 23)) := by
    rw [roundM, if_pos hepos, htn, habs]
  have hmbounds : (1 : ℤ) ≤ roundM ((n : ℤ).natAbs : ℤ) 1 ∧
      roundM ((n : ℤ).natAbs : ℤ) 1 ≤ ((n / (1 * 2 ^ (nlog2 n - 23)) : ℕ) : ℤ) + 1 := by
    rw [hm]
    rcases rnePair_cases (n : ℤ) (1 * 2 ^ (nlog2 n - 23)) with hc | hc <;> rw [hc, hfl] <;>
      constructor <;>
      [skip; omega; skip; omega] <;>
      · have : (2 : ℕ) ^ 23 ≤ n / (1 * 2 ^ (nlog2 n - 23)) := hf1
        have h23 : (1 : ℕ) ≤ 2 ^ 23 := by norm_num
        exact_mod_cast by omega
  have hovffalse : roundOvf ((n : ℤ).natAbs : ℤ) 1 = false := by
    rw [roundOvf, if_pos hepos, htn]
    simp only [decide_eq_false_iff_not, not_le]
    have hNat : (n / (1 * 2 ^ (nlog2 n - 23)) + 1) * 2 ^ (nlog2 n - 23) < 2 ^ 128 := by
      have hexp : (n / (1 * 2 ^ (nlog2 n - 23)) + 1) * 2 ^ (nlog2 n - 23)
          = n / (1 * 2 ^ (nlog2 n - 23)) * (1 * 2 ^ (nlog2 n - 23)) + 1 * 2 ^ (nlog2 n - 23) := by
        ring
      rw [hexp]
      have h8 : (2 : ℕ) ^ 8 < 2 ^ 128 := by norm_num
      have h32 : (2 : ℕ) ^ 32 + 2 ^ 8 < 2 ^ 128 := by norm_num
      omega
    calc roundM ((n : ℤ).natAbs : ℤ) 1 * 2 ^ (nlog2 n - 23)
        ≤ (((n / (1 * 2 ^ (nlog2 n - 23)) : ℕ) : ℤ) + 1) * 2 ^ (nlog2 n - 23) := by
          exact mul_le_mul_of_nonneg_right hmbounds.2 (by positivity)
    _ < 2 ^ 128 := by exact_mod_cast hNat
  refine ⟨dyToQ (roundM ((n : ℤ).natAbs : ℤ) 1) (roundE ((n : ℤ).natAbs : ℤ) 1), ?_, ?_⟩
  · rw [roundPair, if_neg hnz, if_neg (by rw [hovffalse]; simp), if_neg hnneg]
  · rw [dyToQ, if_pos hepos, Rat.mkRat_one]
    have : (0 : ℤ) < roundM ((n : ℤ).natAbs : ℤ) 1 * 2 ^ (roundE ((n : ℤ).natAbs : ℤ) 1).toNat := by
      have hmpos : (0 : ℤ) < roundM ((n : ℤ).natAbs : ℤ) 1 := by omega
      positivity
    exact_mod_cast this

-- C2

/-- C2: `sync` multiplies the total milliseconds by the ratio as one f32
operation and truncates the product toward zero: whenever the f32 product
is a finite value `q` with `0 ≤ q` and `⌊q⌋` in `u32` range, the rendered
result is built from exactly `⌊q⌋` milliseconds — the floor, never the
next integer up — reconstructed via `from_ms` and formatted. -/
theorem sync_truncates_product (t : TimeCode) (r : F32) (q : ℚ)
    (hval : (F32.mul (u32toF32 t.to_ms) r).val = some q) (h0 : 0 ≤ q)
    (h32 : ⌊q⌋ < (u32Lim : ℤ)) :
    t.sync r = (TimeCode.from_ms ⌊q⌋.toNat).to_string := by
  have hmul : F32.mul (u32toF32 t.to_ms) r = .finite q := by
    cases hm : F32.mul (u32toF32 t.to_ms) r with
    | nan => rw [hm] at hval; simp [F32.val] at hval
    | inf s => rw [hm] at hval; simp [F32.val] at hval
    | finite a =>
      rw [hm] at hval
      simp only [F32.val, Option.some_inj] at hval
      rw [hval]
  have hge : 0 ≤ ⌊q⌋ := Int.floor_nonneg.mpr h0
  unfold TimeCode.sync
  rw [hmul]
  have htr : (F32.finite q).trunc = .finite (mkRat (qtrunc q) 1) := rfl
  rw [htr, qtrunc_eq_floor q h0]
  have htu : F32.toU32 (.finite (mkRat ⌊q⌋ 1)) = ⌊q⌋.toNat := by
    simp only [F32.toU32]
    rw [qtrunc_mk_int]
    rw [if_neg (by omega), if_neg (by omega)]
  rw [htu]

/-- C2 witness: 10 seconds scaled by the f32 ratio `1601 / 1024` gives the
finite product `15634.765625`, which formats as `00:00:15,634` — the
floor, with the fractional part truncated. -/
theorem sync_truncates_product_witness :
    (F32.mul (u32toF32 (TimeCode.to_ms ⟨0, 0, 10, 0⟩)) (F32.finite (mkRat 1601 1024))).val
      = some (mkRat 1000625 64) ∧
    TimeCode.sync ⟨0, 0, 10, 0⟩ (F32.finite (mkRat 1601 1024))
      = (TimeCode.from_ms 15634).to_string := by
  constructor
  · decide
  · have hfl : ⌊(mkRat 1000625 64 : ℚ)⌋ = 15634 := by
      rw [Rat.floor_def]
      decide
    have h := sync_truncates_product ⟨0, 0, 10, 0⟩ (F32.finite (mkRat 1601 1024))
      (mkRat 1000625 64) (by decide) (by decide) (by rw [hfl]; decide)
    rw [h, hfl]
    decide

-- C4

/-- C4 counterexample: scaling the parseable timestamp `99:59:59,999` by
ratio 1.0 does not reproduce its format: its total 359999999 ms is not
representable in f32, the `u32 as f32` cast rounds it up to 360000000, and
the result formats as `100:00:00,000`. -/
theorem sync_one_cex :
    TimeCode.sync ⟨99, 59, 59, 999⟩ (F32.finite 1) ≠ TimeCode.to_string ⟨99, 59, 59, 999⟩ := by
  decide

/-- C4 amended: `t.scale(1.0) = t.format()` holds for every timestamp
whose fields are in canonical range (`m, s < 60`, `ms < 1000`) and whose
exact millisecond total is below `2 ^ 24`, so that the `u32 as f32` cast is
exact; outside this domain f32 rounding or the renormalisation performed
by `from_ms` can change the output. -/
theorem sync_one_eq_format (t : TimeCode) (hm : t.m < 60) (hs : t.s < 60)
    (hms : t.ms < 1000) (hlt : totalMs t < 2 ^ 24) :
    t.sync (F32.finite 1) = t.to_string := by
  have hlim : (2 : ℕ) ^ 24 < u32Lim := by norm_num [u32Lim]
  have h32 : totalMs t < u32Lim := by omega
  have hms_eq : t.to_ms = totalMs t := to_ms_exact t h32
  unfold TimeCode.sync
  rw [hms_eq]
  have h1 : u32toF32 (totalMs t) = .finite (totalMs t : ℚ) :=
    roundPair_natCast _ (by omega)
  rw [h1]
  have h2 : F32.mul (.finite (totalMs t : ℚ)) (.finite 1) = .finite (totalMs t : ℚ) := by
    show roundPair ((totalMs t : ℚ).num * (1 : ℚ).num) ((totalMs t : ℚ).den * (1 : ℚ).den) = _
    rw [Rat.num_natCast, Rat.den_natCast, Rat.num_one, Rat.den_one, mul_one, mul_one]
    exact roundPair_natCast _ (by omega)
  rw [h2]
  have h3 : (F32.finite (totalMs t : ℚ)).trunc = .finite (mkRat (totalMs t) 1) := by
    show F32.finite (mkRat (qtrunc (totalMs t : ℚ)) 1) = _
    rw [qtrunc_natCast]
  rw [h3]
  have h4 : F32.toU32 (.finite (mkRat (totalMs t) 1)) = totalMs t := by
    simp only [F32.toU32]
    rw [qtrunc_mk_int]
    rw [if_neg (by omega), if_neg (by exact_mod_cast by omega)]
    exact Int.toNat_natCast _
  rw [h4, from_ms_totalMs t hm hs hms]

/-- C4 witness: the identity ratio reproduces `00:00:10,000` exactly. -/
theorem sync_one_eq_format_witness :
    TimeCode.sync ⟨0, 0, 10, 0⟩ (F32.finite 1) = TimeCode.to_string ⟨0, 0, 10, 0⟩ :=
  sync_one_eq_format _ (by decide) (by decide) (by decide) (by decide)

-- C7

/-- C7 counterexample: with the `from` reference `00:00:00,000` (total
zero) and the `to` reference `00:00:01,000`, `compute_ratio` does not fail
with a `DivisionByZero` error: it returns the f32 quotient `+∞`. -/
theorem compute_ratio_zero_cex :
    compute_ratio [48, 48, 58, 48, 48, 58, 48, 48, 44, 48, 48, 48]
      [48, 48, 58, 48, 48, 58, 48, 49, 44, 48, 48, 48] = some (F32.inf false) := by
  decide

/-- C7 amended: `compute_ratio` parses both references and panics (returns
no value; there is no `MalformedTimestamp` error value) when either parse
fails; when both parse it returns the f32 quotient of the `to` total by
the `from` total, and in particular when the `from` total is zero and the
`to` total is nonzero the result is `+∞`, not a `DivisionByZero` error. -/
theorem compute_ratio_spec :
    (∀ f t : List Nat, (∀ a, TimeCode.from_str f ≠ .ok a) → compute_ratio f t = none) ∧
    (∀ f t : List Nat, ∀ a, TimeCode.from_str f = .ok a →
      (∀ b, TimeCode.from_str t ≠ .ok b) → compute_ratio f t = none) ∧
    (∀ f t : List Nat, ∀ a b, TimeCode.from_str f = .ok a → TimeCode.from_str t = .ok b →
      compute_ratio f t = some (F32.div (u32toF32 b.to_ms) (u32toF32 a.to_ms))) ∧
    (∀ f t : List Nat, ∀ a b, TimeCode.from_str f = .ok a → TimeCode.from_str t = .ok b →
      a.to_ms = 0 → 1 ≤ b.to_ms → compute_ratio f t = some (F32.inf false)) := by
  have hok : ∀ f t : List Nat, ∀ a b, TimeCode.from_str f = .ok a →
      TimeCode.from_str t = .ok b →
      compute_ratio f t = some (F32.div (u32toF32 b.to_ms) (u32toF32 a.to_ms)) := by
    intro f t a b hf ht
    simp [compute_ratio, hf, ht]
  refine ⟨?_, ?_, hok, ?_⟩
  · intro f t h
    cases hf : TimeCode.from_str f with
    | ok a => exact absurd hf (h a)
    | parseErr => simp [compute_ratio, hf]
    | panicked => simp [compute_ratio, hf]
  · intro f t a hf h
    cases ht : TimeCode.from_str t with
    | ok b => exact absurd ht (h b)
    | parseErr => simp [compute_ratio, hf, ht]
    | panicked => simp [compute_ratio, hf, ht]
  · intro f t a b hf ht ha hb
    rw [hok f t a b hf ht]
    have hza : u32toF32 a.to_ms = .finite 0 := by
      rw [ha]
      decide
    have hlt : b.to_ms < 2 ^ 32 := by
      have := to_ms_lt b
      norm_num [u32Lim] at this
      omega
    obtain ⟨qb, hqb, hqbpos⟩ := roundPair_natCast_pos b.to_ms hb hlt
    have hqb' : u32toF32 b.to_ms = F32.finite qb := hqb
    rw [hza, hqb']
    have hnum : 0 < qb.num := Rat.num_pos.mpr hqbpos
    have hdiv : F32.div (.finite qb) (.finite 0) = .inf false := by
      simp only [F32.div]
      rw [if_pos (by simp), if_neg (by omega)]
      congr 1
      simp only [decide_eq_false_iff_not, not_lt]
      omega
    rw [hdiv]

/-- C7 witness: on the spec's reference pair (`from = 00:40:50,652`,
`to = 00:43:50,200`), both parses succeed and the result is the f32
quotient of the two totals. -/
theorem compute_ratio_spec_witness :
    compute_ratio [48, 48, 58, 52, 48, 58, 53, 48, 44, 54, 53, 50]
      [48, 48, 58, 52, 51, 58, 53, 48, 44, 50, 48, 48]
      = some (F32.div (u32toF32 (TimeCode.to_ms ⟨0, 43, 50, 200⟩))
          (u32toF32 (TimeCode.to_ms ⟨0, 40, 50, 652⟩))) :=
  compute_ratio_spec.2.2.1 _ _ ⟨0, 40, 50, 652⟩ ⟨0, 43, 50, 200⟩ (by decide) (by decide)

-- C5

theorem parseU32_two : ∀ a, a ≤ 9 → ∀ b, b ≤ 9 →
    parseU32 [48 + a, 48 + b] = some (10 * a + b) := by decide

theorem parseU32_three : ∀ a, a ≤ 9 → ∀ b, b ≤ 9 → ∀ c, c ≤ 9 →
    parseU32 [48 + a, 48 + b, 48 + c] = some (100 * a + 10 * b + c) := by decide

theorem pad2_eq : ∀ n, n < 100 → pad2 n = [48 + n / 10, 48 + n % 10] := by decide

theorem pad3_eq : ∀ n, n < 1000 →
    pad3 n = [48 + n / 100, 48 + n / 10 % 10, 48 + n % 10] := by decide

theorem isCharBoundary_ascii (s : List Nat) (i : Nat) (h1 : i < s.length)
    (h2 : s.getD i 0 < 128) : isCharBoundary s i = true := by
  have hc : (decide (i < s.length) &&
      !(decide (128 ≤ s.getD i 0) && decide (s.getD i 0 < 192))) = true := by
    rw [decide_eq_true h1, decide_eq_false (by omega : ¬(128 ≤ s.getD i 0))]
    rfl
  unfold isCharBoundary
  rw [hc]
  simp

/-- C5: a 12-byte string of the canonical shape `HH:MM:SS,mmm` — ASCII
digits at the fixed offsets, `:` at 2 and 5, `,` at 8 — parses to the
timestamp with those digit-group values, and formatting that timestamp
reproduces the original string byte for byte. -/
theorem parse_format_round_trip (d0 d1 d2 d3 d4 d5 d6 d7 d8 : ℕ)
    (h0 : d0 ≤ 9) (h1 : d1 ≤ 9) (h2 : d2 ≤ 9) (h3 : d3 ≤ 9) (h4 : d4 ≤ 9)
    (h5 : d5 ≤ 9) (h6 : d6 ≤ 9) (h7 : d7 ≤ 9) (h8 : d8 ≤ 9) :
    TimeCode.from_str [48 + d0, 48 + d1, 58, 48 + d2, 48 + d3, 58,
        48 + d4, 48 + d5, 44, 48 + d6, 48 + d7, 48 + d8]
      = .ok ⟨10 * d0 + d1, 10 * d2 + d3, 10 * d4 + d5, 100 * d6 + 10 * d7 + d8⟩ ∧
    TimeCode.to_string ⟨10 * d0 + d1, 10 * d2 + d3, 10 * d4 + d5, 100 * d6 + 10 * d7 + d8⟩
      = [48 + d0, 48 + d1, 58, 48 + d2, 48 + d3, 58,
        48 + d4, 48 + d5, 44, 48 + d6, 48 + d7, 48 + d8] := by
  constructor
  · have hb3 : isCharBoundary [48 + d0, 48 + d1, 58, 48 + d2, 48 + d3, 58,
        48 + d4, 48 + d5, 44, 48 + d6, 48 + d7, 48 + d8] 3 = true :=
      isCharBoundary_ascii _ 3 (by show (3 : ℕ) < 12; norm_num)
        (by show 48 + d2 < 128; omega)
    have hb6 : isCharBoundary [48 + d0, 48 + d1, 58, 48 + d2, 48 + d3, 58,
        48 + d4, 48 + d5, 44, 48 + d6, 48 + d7, 48 + d8] 6 = true :=
      isCharBoundary_ascii _ 6 (by show (6 : ℕ) < 12; norm_num)
        (by show 48 + d4 < 128; omega)
    have hb9 : isCharBoundary [48 + d0, 48 + d1, 58, 48 + d2, 48 + d3, 58,
        48 + d4, 48 + d5, 44, 48 + d6, 48 + d7, 48 + d8] 9 = true :=
      isCharBoundary_ascii _ 9 (by show (9 : ℕ) < 12; norm_num)
        (by show 48 + d6 < 128; omega)
    have e1 : byteSlice [48 + d0, 48 + d1, 58, 48 + d2, 48 + d3, 58,
        48 + d4, 48 + d5, 44, 48 + d6, 48 + d7, 48 + d8] 0 2 = some [48 + d0, 48 + d1] := by
      unfold byteSlice
      rw [if_pos ⟨by norm_num, by show (2 : ℕ) ≤ 12; norm_num, rfl, rfl⟩]
      rfl
    have e2 : byteSlice [48 + d0, 48 + d1, 58, 48 + d2, 48 + d3, 58,
        48 + d4, 48 + d5, 44, 48 + d6, 48 + d7, 48 + d8] 3 5 = some [48 + d2, 48 + d3] := by
      unfold byteSlice
      rw [if_pos ⟨by norm_num, by show (5 : ℕ) ≤ 12; norm_num, hb3, rfl⟩]
      rfl
    have e3 : byteSlice [48 + d0, 48 + d1, 58, 48 + d2, 48 + d3, 58,
        48 + d4, 48 + d5, 44, 48 + d6, 48 + d7, 48 + d8] 6 8 = some [48 + d4, 48 + d5] := by
      unfold byteSlice
      rw [if_pos ⟨by norm_num, by show (8 : ℕ) ≤ 12; norm_num, hb6, rfl⟩]
      rfl
    have e4 : byteSlice [48 + d0, 48 + d1, 58, 48 + d2, 48 + d3, 58,
        48 + d4, 48 + d5, 44, 48 + d6, 48 + d7, 48 + d8] 9 12
        = some [48 + d6, 48 + d7, 48 + d8] := by
      unfold byteSlice
      rw [if_pos ⟨by norm_num, by show (12 : ℕ) ≤ 12; norm_num, hb9, rfl⟩]
      rfl
    simp only [TimeCode.from_str, e1, e2, e3, e4, parseU32_two d0 h0 d1 h1,
      parseU32_two d2 h2 d3 h3, parseU32_two d4 h4 d5 h5,
      parseU32_three d6 h6 d7 h7 d8 h8]
  · unfold TimeCode.to_string
    dsimp only
    rw [pad2_eq _ (by omega), pad2_eq _ (by omega), pad2_eq _ (by omega),
      pad3_eq _ (by omega)]
    have a0 : (10 * d0 + d1) / 10 = d0 := by omega
    have a1 : (10 * d0 + d1) % 10 = d1 := by omega
    have a2 : (10 * d2 + d3) / 10 = d2 := by omega
    have a3 : (10 * d2 + d3) % 10 = d3 := by omega
    have a4 : (10 * d4 + d5) / 10 = d4 := by omega
    have a5 : (10 * d4 + d5) % 10 = d5 := by omega
    have a6 : (100 * d6 + 10 * d7 + d8) / 100 = d6 := by omega
    have a7 : (100 * d6 + 10 * d7 + d8) / 10 % 10 = d7 := by omega
    have a8 : (100 * d6 + 10 * d7 + d8) % 10 = d8 := by omega
    rw [a0, a1, a2, a3, a4, a5, a6, a7, a8]
    rfl

/-- C5 witness: the round trip at the spec's reference timestamp
`00:40:50,652`. -/
theorem parse_format_round_trip_witness :
    TimeCode.from_str [48, 48, 58, 52, 48, 58, 53, 48, 44, 54, 53, 50]
      = .ok ⟨0, 40, 50, 652⟩ ∧
    TimeCode.to_string ⟨0, 40, 50, 652⟩
      = [48, 48, 58, 52, 48, 58, 53, 48, 44, 54, 53, 50] :=
  parse_format_round_trip 0 0 4 0 5 0 6 5 2 (by norm_num) (by norm_num) (by norm_num)
    (by norm_num) (by norm_num) (by norm_num) (by norm_num) (by norm_num) (by norm_num)
